import Mathlib

set_option maxRecDepth 100000

/-!
Verification development for the `transformTypes` pipeline of
`supabase-to-zod` (`src/lib/transform-types.ts`).

The source function receives a TypeScript source text, parses it with the
external TypeScript compiler (`ts.createSourceFile`), walks the resulting
tree collecting declaration strings, filters out strings containing
`Record<number`, joins the rest with `";\n"`, and finally rewrites every
qualified `Database[...]` enum / composite-type reference path to the
formatted name recorded during extraction (`String.prototype.replaceAll`,
double-quoted spelling first, then single-quoted, enums first, then
composite types).

The embedding models the pipeline from the point after parsing: the parsed
source file is a list of top-level declarations whose nodes carry their
verbatim source text (`getText`) as data.  Text is modelled as `String`
(a packed `List Char`); `replaceAll` is modelled by an executable
left-to-right non-overlapping scan (`listReplaceAll`), `includes` by an
executable substring test, and `join(';\n')` by `joinSep`.
(`replaceAll`'s `$`-substitution patterns in the replacement string are not
modelled; no claim exercises them.)
-/

/-! ## Generic text machinery (lists over a decidable alphabet) -/

/-- Decidable prefix test, `k` a prefix of `s`. -/
def isPre [DecidableEq α] : List α → List α → Bool
  | [], _ => true
  | _ :: _, [] => false
  | a :: as, b :: bs => if a = b then isPre as bs else false

/-- Decidable substring (contiguous infix) test, `k` an infix of `s`.
Mirrors JavaScript `String.prototype.includes`. -/
def isSubstr [DecidableEq α] (k : List α) : List α → Bool
  | [] => k.isEmpty
  | b :: bs => isPre k (b :: bs) || isSubstr k bs

/-- One fuel-indexed step function for JavaScript
`String.prototype.replaceAll` with a non-empty string pattern: scan left to
right, replace each (non-overlapping) occurrence of `k` by `r`.  The fuel is
only there to make the recursion structural; `fuel ≥ s.length` always holds
at call sites. -/
def replaceGo [DecidableEq α] (k r : List α) : Nat → List α → List α
  | _, [] => []
  | 0, s => s
  | fuel + 1, b :: bs =>
    if isPre k (b :: bs) then r ++ replaceGo k r fuel ((b :: bs).drop k.length)
    else b :: replaceGo k r fuel bs

/-- JavaScript `s.replaceAll(k, r)` for list-modelled strings.  The
`k.isEmpty` branch never arises in the modelled program (all replacement
keys start with `Database[`). -/
def listReplaceAll [DecidableEq α] (k r s : List α) : List α :=
  if k.isEmpty then s else replaceGo k r s.length s

/-- Fuel-indexed companion of `replaceGo` returning the list of maximal
scan segments between the replaced occurrences of `k`. -/
def splitGo [DecidableEq α] (k : List α) : Nat → List α → List (List α)
  | _, [] => [[]]
  | 0, s => [s]
  | fuel + 1, b :: bs =>
    if isPre k (b :: bs) then [] :: splitGo k fuel ((b :: bs).drop k.length)
    else
      match splitGo k fuel bs with
      | [] => [[b]]
      | p :: ps => (b :: p) :: ps

/-- The segments of `s` between the left-to-right non-overlapping
occurrences of `k`. -/
def splitAll [DecidableEq α] (k s : List α) : List (List α) :=
  if k.isEmpty then [s] else splitGo k s.length s

/-- Join a list of segments, interposing `r` between consecutive ones. -/
def joinParts (r : List α) : List (List α) → List α
  | [] => []
  | [p] => p
  | p :: ps => p ++ r ++ joinParts r ps

/-! ## String-level wrappers -/

/-- `s.replaceAll(k, r)` on packed strings. -/
def strReplaceAll (k r s : String) : String := ⟨listReplaceAll k.data r.data s.data⟩

/-- `s.includes(pat)` on packed strings. -/
def strIncludes (s pat : String) : Bool := isSubstr pat.data s.data

/-- JavaScript `Array.prototype.join(sep)` on strings. -/
def joinSep (sep : String) : List String → String
  | [] => ""
  | [a] => a
  | a :: rest => a ++ sep ++ joinSep sep rest

/-! ## Data model: the parsed source file

The TypeScript node kinds the walk in `transform-types.ts` distinguishes.
Every type node carries its verbatim source text (the result of
`n.getText(sourceFile)`); container nodes additionally carry the child
nodes `forEachChild` visits.  A `propertySignature`'s declared name (what
`getNodeName` returns, and `n.name.text` for identifier names) is carried
as its `name` field. -/

inductive TsNode where
  | propertySignature (name : String) (children : List TsNode)
  | typeLiteral (members : List TsNode) (text : String)
  | unionType (text : String)
  | literalType (text : String)
  | tupleType (text : String)
  | typeReference (text : String)
  | otherNode (text : String)

/-- A top-level declaration of the parsed source file.  A type alias
carries its aliased type node and the verbatim text of the whole
declaration (`n.getText(sourceFile)`, used for `Json`); an interface
carries the member nodes its `forEachChild` traversal yields (the name
identifier child is omitted: `processDatabase` ignores every
non-property-signature node, so it never contributes). -/
inductive TopDecl where
  | typeAlias (name : String) (ty : TsNode) (fullText : String)
  | interfaceDecl (name : String) (members : List TsNode)
  | otherDecl

/-- Modelled from the spec: the Name Resolver (`get-node-name.ts`, a
repository file not included under `src/`): given a declaration node,
return its declared identifier, or `none` if the node carries no nameable
identifier (§4.2).  In this embedding only property signatures carry a
declared name. -/
def getNodeName : TsNode → Option String
  | TsNode.propertySignature name _ => some name
  | _ => none

/-- An entry of `enumNames` / `compositeTypeNames`:
`{ name, formattedName }`. -/
structure NamedPair where
  name : String
  formattedName : String
deriving DecidableEq, Repr

/-- The category of a push to `typeStrings`, according to which branch of
the walk performed it. -/
inductive Cat where
  | table
  | enumDecl
  | compositeType
  | funcDecl
  | json
deriving DecidableEq, Repr

/-- One push performed by the walk: either a plain declaration string, or
(for enums and composite types) a declaration string pushed together with
its `{ name, formattedName }` record. -/
inductive Emit where
  | table (s : String)
  | enumE (s : String) (p : NamedPair)
  | comp (s : String) (p : NamedPair)
  | func (s : String)
  | json (s : String)
deriving DecidableEq, Repr

/-- The declaration string of an emission (the value pushed to
`typeStrings`). -/
def Emit.text : Emit → String
  | Emit.table s => s
  | Emit.enumE s _ => s
  | Emit.comp s _ => s
  | Emit.func s => s
  | Emit.json s => s

/-- The category of an emission. -/
def Emit.cat : Emit → Cat
  | Emit.table _ => Cat.table
  | Emit.enumE _ _ => Cat.enumDecl
  | Emit.comp _ _ => Cat.compositeType
  | Emit.func _ => Cat.funcDecl
  | Emit.json _ => Cat.json

/-- The validated options record of `transformTypes`
(`transformTypesOptionsSchema`, minus `sourceText`, whose parsed form is
passed separately), with the schema's default values. -/
structure TransformTypesOptions where
  schema : String := "public"
  enumFormatter : String → String := fun name => name
  compositeTypeFormatter : String → String := fun name => name
  functionFormatter : String → String → String := fun name ty => name ++ ty
  tableOrViewFormatter : String → String → String := fun name operation => name ++ operation
  relationships : Bool := false
  updates : Bool := false
  inserts : Bool := false
  deletes : Bool := false

/-- All-default options (every field as defaulted by
`transformTypesOptionsSchema`). -/
def defaultOptions : TransformTypesOptions := {}

/-! ## The extraction walk (lines 64-242 of `transform-types.ts`)

Each function below mirrors one nesting level of the source walk.  Where
the source writes `const x = getNodeName(n)` on a node already matched as
a property signature, the embedding binds the signature's `name` field
directly (`getNodeName` yields exactly that name there). -/

/-- The declaration template `export type <name> = <body>`. -/
def declString (name body : String) : String :=
  "export type " ++ name ++ " = " ++ body

/-- Lines 88-116: one child of a table/view member's type literal: a
property signature names an operation; gated operations are skipped
(`return`), an unnamed operation (JavaScript falsy name) pushes nothing,
and otherwise each type-literal or tuple child pushes one declaration. -/
def opEmits (opts : TransformTypesOptions) (tableOrViewName : String) : TsNode → List Emit
  | TsNode.propertySignature operation children =>
    if (operation = "Relationships" && !opts.relationships)
        || (operation = "Insert" && !opts.inserts)
        || (operation = "Update" && !opts.updates)
        || (operation = "Delete" && !opts.deletes) then []
    else if operation = "" then []
    else
      children.flatMap fun c =>
        match c with
        | TsNode.typeLiteral _ text =>
          [Emit.table (declString (opts.tableOrViewFormatter tableOrViewName operation) text)]
        | TsNode.tupleType text =>
          [Emit.table (declString (opts.tableOrViewFormatter tableOrViewName operation) text)]
        | _ => []
  | _ => []

/-- Lines 82-120: one member of a `Tables`/`Views` group literal: a
property signature names a table or view; its type-literal children's
members are the operations. -/
def tableMemberEmits (opts : TransformTypesOptions) : TsNode → List Emit
  | TsNode.propertySignature tableOrViewName children =>
    children.flatMap fun c =>
      match c with
      | TsNode.typeLiteral members _ => members.flatMap (opEmits opts tableOrViewName)
      | _ => []
  | _ => []

/-- Lines 128-158: one member of the `Enums` group literal: a union body
or a single-literal body pushes a declaration and records
`{ name, formattedName }`; any other body shape pushes nothing. -/
def enumMemberEmits (fmt : String → String) : TsNode → List Emit
  | TsNode.propertySignature enumName children =>
    children.flatMap fun c =>
      match c with
      | TsNode.unionType text =>
        [Emit.enumE (declString (fmt enumName) text) ⟨enumName, fmt enumName⟩]
      | TsNode.literalType text =>
        [Emit.enumE (declString (fmt enumName) text) ⟨enumName, fmt enumName⟩]
      | _ => []
  | _ => []

/-- Lines 167-184: one member of the `CompositeTypes` group literal: each
type-literal body pushes a declaration and records
`{ name, formattedName }`. -/
def compMemberEmits (fmt : String → String) : TsNode → List Emit
  | TsNode.propertySignature name children =>
    children.flatMap fun c =>
      match c with
      | TsNode.typeLiteral _ text =>
        [Emit.comp (declString (fmt name) text) ⟨name, fmt name⟩]
      | _ => []
  | _ => []

/-- Lines 199-211: one member of a function member's type literal: a
property signature names an argument/return grouping; each type-reference
child pushes one declaration. -/
def funcArgEmits (fmt : String → String → String) (functionName : String) : TsNode → List Emit
  | TsNode.propertySignature argType children =>
    children.flatMap fun c =>
      match c with
      | TsNode.typeReference text => [Emit.func (declString (fmt functionName argType) text)]
      | _ => []
  | _ => []

/-- Lines 193-215: one member of the `Functions` group literal. -/
def funcMemberEmits (fmt : String → String → String) : TsNode → List Emit
  | TsNode.propertySignature functionName children =>
    children.flatMap fun c =>
      match c with
      | TsNode.typeLiteral members _ => members.flatMap (funcArgEmits fmt functionName)
      | _ => []
  | _ => []

/-- Lines 77-219: one member of the selected schema's type literal,
dispatched on its declared (identifier) name.  The source tests the four
group names with four independent `if`s in this order; since the constants
are pairwise distinct at most one branch fires, and the appends preserve
the source's push order. -/
def groupEmits (opts : TransformTypesOptions) : TsNode → List Emit
  | TsNode.propertySignature gname children =>
    (if gname = "Tables" || gname = "Views" then
      children.flatMap fun c =>
        match c with
        | TsNode.typeLiteral members _ => members.flatMap (tableMemberEmits opts)
        | _ => []
    else [])
    ++ (if gname = "Enums" then
      children.flatMap fun c =>
        match c with
        | TsNode.typeLiteral members _ => members.flatMap (enumMemberEmits opts.enumFormatter)
        | _ => []
    else [])
    ++ (if gname = "CompositeTypes" then
      children.flatMap fun c =>
        match c with
        | TsNode.typeLiteral members _ =>
          members.flatMap (compMemberEmits opts.compositeTypeFormatter)
        | _ => []
    else [])
    ++ (if gname = "Functions" then
      children.flatMap fun c =>
        match c with
        | TsNode.typeLiteral members _ => members.flatMap (funcMemberEmits opts.functionFormatter)
        | _ => []
    else [])
  | _ => []

/-- Lines 69-226 (`processDatabase`): one member of the `Database` body: a
property signature whose declared name equals the configured schema has
its type-literal children's members processed as groups; everything else
is ignored. -/
def schemaEmits (opts : TransformTypesOptions) : TsNode → List Emit
  | TsNode.propertySignature schemaName children =>
    if schemaName = opts.schema then
      children.flatMap fun c =>
        match c with
        | TsNode.typeLiteral members _ => members.flatMap (groupEmits opts)
        | _ => []
    else []
  | _ => []

/-- Lines 228-241: one top-level declaration: an alias-style `Database`
with a type-literal body has its members processed; an interface-style
`Database` has its traversed children processed; independently, a type
alias named `Json` pushes its verbatim declaration text. -/
def topDeclEmits (opts : TransformTypesOptions) : TopDecl → List Emit
  | TopDecl.typeAlias name ty fullText =>
    (match ty with
     | TsNode.typeLiteral members _ =>
       if name = "Database" then members.flatMap (schemaEmits opts) else []
     | _ => [])
    ++ (if name = "Json" then [Emit.json fullText] else [])
  | TopDecl.interfaceDecl name members =>
    if name = "Database" then members.flatMap (schemaEmits opts) else []
  | TopDecl.otherDecl => []

/-- Lines 68-242: the full walk over the source file's top-level
declarations, in order. -/
def collectEmits (opts : TransformTypesOptions) (sourceFile : List TopDecl) : List Emit :=
  sourceFile.flatMap (topDeclEmits opts)

/-- The `typeStrings` array after the walk. -/
def typeStrings (opts : TransformTypesOptions) (sourceFile : List TopDecl) : List String :=
  (collectEmits opts sourceFile).map Emit.text

/-- The `enumNames` array after the walk. -/
def enumNames (opts : TransformTypesOptions) (sourceFile : List TopDecl) : List NamedPair :=
  (collectEmits opts sourceFile).filterMap fun e =>
    match e with
    | Emit.enumE _ p => some p
    | _ => none

/-- The `compositeTypeNames` array after the walk. -/
def compositeTypeNames (opts : TransformTypesOptions) (sourceFile : List TopDecl) : List NamedPair :=
  (collectEmits opts sourceFile).filterMap fun e =>
    match e with
    | Emit.comp _ p => some p
    | _ => none

/-- Lines 244-246 (first half): the collected strings that survive the
`!s.includes('Record<number')` filter. -/
def filteredStrings (opts : TransformTypesOptions) (sourceFile : List TopDecl) : List String :=
  (typeStrings opts sourceFile).filter fun s => !(strIncludes s "Record<number")

/-- The double-quoted qualified reference path
`Database["<schema>"]["<category>"]["<name>"]`. -/
def dqKey (schema category name : String) : String :=
  "Database[\"" ++ schema ++ "\"][\"" ++ category ++ "\"][\"" ++ name ++ "\"]"

/-- The single-quoted qualified reference path. -/
def sqKey (schema category name : String) : String :=
  "Database['" ++ schema ++ "']['" ++ category ++ "']['" ++ name ++ "']"

/-- Lines 248-268: one rewrite loop: for each recorded entry in order,
replace all occurrences of the double-quoted spelling, then of the
single-quoted spelling, with the entry's formatted name. -/
def rewriteLoop (schema category : String) (names : List NamedPair) (s : String) : String :=
  names.foldl
    (fun acc p =>
      strReplaceAll (sqKey schema category p.name) p.formattedName
        (strReplaceAll (dqKey schema category p.name) p.formattedName acc))
    s

/-- Lines 42-271: the whole pipeline after parsing: walk, filter, join
with `";\n"`, rewrite enum references, then composite-type references,
return the resulting text. -/
def transformTypes (opts : TransformTypesOptions) (sourceFile : List TopDecl) : String :=
  rewriteLoop opts.schema "CompositeTypes" (compositeTypeNames opts sourceFile)
    (rewriteLoop opts.schema "Enums" (enumNames opts sourceFile)
      (joinSep ";\n" (filteredStrings opts sourceFile)))

/-! ## The rewrite loops as one pass over a key/replacement pair list -/

/-- The two quoting-convention pairs for each recorded entry of one
category, in the order the loops of lines 248-268 apply them. -/
def pairsFor (schema category : String) (names : List NamedPair) : List (String × String) :=
  names.flatMap fun p =>
    [(dqKey schema category p.name, p.formattedName),
     (sqKey schema category p.name, p.formattedName)]

/-- Apply a list of key/replacement pairs, left to right, each as one
global `replaceAll` pass. -/
def applyPairs (prs : List (String × String)) (s : String) : String :=
  prs.foldl (fun acc kr => strReplaceAll kr.1 kr.2 acc) s

/-- The full key/replacement pair list of a run: enum entries first, then
composite-type entries, each with double-quoted then single-quoted
spelling. -/
def refPairs (opts : TransformTypesOptions) (sourceFile : List TopDecl) : List (String × String) :=
  pairsFor opts.schema "Enums" (enumNames opts sourceFile)
    ++ pairsFor opts.schema "CompositeTypes" (compositeTypeNames opts sourceFile)

/-- The invariant tying a recorded `{ name, formattedName }` pair to the
formatter that produced it. -/
def pairOK (opts : TransformTypesOptions) : Emit → Prop
  | Emit.enumE _ p => p.formattedName = opts.enumFormatter p.name
  | Emit.comp _ p => p.formattedName = opts.compositeTypeFormatter p.name
  | _ => True

/-- Replace the four gating flags of an options record. -/
def setFlags (opts : TransformTypesOptions) (r u i d : Bool) : TransformTypesOptions :=
  { opts with relationships := r, updates := u, inserts := i, deletes := d }

/-- The walk's emissions that survive the `Record<number` filter (the ones
whose declaration strings are joined into the output). -/
def keptEmits (opts : TransformTypesOptions) (sourceFile : List TopDecl) : List Emit :=
  (collectEmits opts sourceFile).filter fun e => !(strIncludes e.text "Record<number")

/-- The number of table-or-view declarations that reach the output. -/
def tvKeptCount (opts : TransformTypesOptions) (sourceFile : List TopDecl) : Nat :=
  ((keptEmits opts sourceFile).filter fun e => e.cat == Cat.table).length

/-- Decides that a top-level declaration contributes no emission: it is not
a `Json` type alias, and if it is a `Database` declaration then no
property-signature child of its body is named `schema`. -/
def yieldsNoEmits (schema : String) : TopDecl → Bool
  | TopDecl.typeAlias name ty _ =>
    name != "Json" &&
      (match ty with
       | TsNode.typeLiteral members _ =>
         name != "Database" || members.all fun m =>
           match m with
           | TsNode.propertySignature n _ => n != schema
           | _ => true
       | _ => true)
  | TopDecl.interfaceDecl name members =>
    name != "Database" || members.all fun m =>
      match m with
      | TsNode.propertySignature n _ => n != schema
      | _ => true
  | TopDecl.otherDecl => true

/-! ## Concrete inputs used by the claim theorems -/

/-- Decides whether an enum body node is a union type or a single literal
type (the two shapes lines 132 and 146 accept). -/
def isUnionOrLiteral : TsNode → Bool
  | TsNode.unionType _ => true
  | TsNode.literalType _ => true
  | _ => false

/-- A source file whose `public` schema has one table `t` whose `Row` body
references enum `b` by qualified path, and two enums `a` and `b`. -/
def c1Tree : List TopDecl :=
  [TopDecl.typeAlias "Database"
    (TsNode.typeLiteral
      [TsNode.propertySignature "public"
        [TsNode.typeLiteral
          [TsNode.propertySignature "Tables"
            [TsNode.typeLiteral
              [TsNode.propertySignature "t"
                [TsNode.typeLiteral
                  [TsNode.propertySignature "Row"
                    [TsNode.typeLiteral []
                      "[ f: Database[\"public\"][\"Enums\"][\"b\"] ]"]] "tb"]] "tg"],
           TsNode.propertySignature "Enums"
            [TsNode.typeLiteral
              [TsNode.propertySignature "a" [TsNode.unionType "\"x\" | \"y\""],
               TsNode.propertySignature "b" [TsNode.unionType "\"z\" | \"w\""]] "eg"]]
          "sb"]] "db") "dbfull"]

/-- Options whose enum formatter maps `b` to the double-quoted qualified
path of enum `a` (an allowed, deterministic, fixed-arity formatter). -/
def c1Opts : TransformTypesOptions :=
  { defaultOptions with
    enumFormatter := fun n =>
      if n = "b" then "Database[\"public\"][\"Enums\"][\"a\"]" else "A" }

/-- A source file whose `public` schema has one table `t` whose `Row` body
references enum `m` by qualified path, and the enum `m`. -/
def c4Tree : List TopDecl :=
  [TopDecl.typeAlias "Database"
    (TsNode.typeLiteral
      [TsNode.propertySignature "public"
        [TsNode.typeLiteral
          [TsNode.propertySignature "Tables"
            [TsNode.typeLiteral
              [TsNode.propertySignature "t"
                [TsNode.typeLiteral
                  [TsNode.propertySignature "Row"
                    [TsNode.typeLiteral []
                      "[ x: Database[\"public\"][\"Enums\"][\"m\"] ]"]] "tb"]] "tg"],
           TsNode.propertySignature "Enums"
            [TsNode.typeLiteral
              [TsNode.propertySignature "m" [TsNode.unionType "\"a\" | \"b\""]] "eg"]]
          "sb"]] "db") "dbfull"]

/-- Options whose enum formatter returns a name containing the filtered
`Record<number` pattern. -/
def c4Opts : TransformTypesOptions :=
  { defaultOptions with enumFormatter := fun _ => "Record<number" }

/-- A source file whose `public` schema has an `Enums` group with two
members sharing the name `m`. -/
def c6Tree : List TopDecl :=
  [TopDecl.typeAlias "Database"
    (TsNode.typeLiteral
      [TsNode.propertySignature "public"
        [TsNode.typeLiteral
          [TsNode.propertySignature "Enums"
            [TsNode.typeLiteral
              [TsNode.propertySignature "m" [TsNode.unionType "\"a\""],
               TsNode.propertySignature "m" [TsNode.unionType "\"b\""]] "eg"]]
          "sb"]] "db") "dbfull"]

/-- A source file whose `public` schema body lists its `Enums` group before
its `Tables` group. -/
def c9Tree : List TopDecl :=
  [TopDecl.typeAlias "Database"
    (TsNode.typeLiteral
      [TsNode.propertySignature "public"
        [TsNode.typeLiteral
          [TsNode.propertySignature "Enums"
            [TsNode.typeLiteral
              [TsNode.propertySignature "m" [TsNode.unionType "\"a\" | \"b\""]] "eg"],
           TsNode.propertySignature "Tables"
            [TsNode.typeLiteral
              [TsNode.propertySignature "t"
                [TsNode.typeLiteral
                  [TsNode.propertySignature "Row" [TsNode.typeLiteral [] "Json"]] "tb"]] "tg"]]
          "sb"]] "db") "dbfull"]

/-- A source file whose `public` schema has an `Enums` member `status`
whose body is a type reference (neither a union nor a literal), and a table
whose `Row` body references `status` by qualified path. -/
def c10Tree : List TopDecl :=
  [TopDecl.typeAlias "Database"
    (TsNode.typeLiteral
      [TsNode.propertySignature "public"
        [TsNode.typeLiteral
          [TsNode.propertySignature "Enums"
            [TsNode.typeLiteral
              [TsNode.propertySignature "status" [TsNode.typeReference "SomeRef"]] "eg"],
           TsNode.propertySignature "Tables"
            [TsNode.typeLiteral
              [TsNode.propertySignature "t"
                [TsNode.typeLiteral
                  [TsNode.propertySignature "Row"
                    [TsNode.typeLiteral []
                      "[ s: Database[\"public\"][\"Enums\"][\"status\"] ]"]] "tb"]] "tg"]]
          "sb"]] "db") "dbfull"]

/-! ## General lemmas about the text machinery -/

theorem isPre_iff [DecidableEq α] (k s : List α) : isPre k s = true ↔ k <+: s := by
  induction k generalizing s with
  | nil => simp [isPre]
  | cons a as ih =>
    cases s with
    | nil => simp [isPre]
    | cons b bs =>
      by_cases h : a = b
      · simp [isPre, h, ih, List.cons_prefix_cons]
      · simp [isPre, h, List.cons_prefix_cons]

theorem isSubstr_iff [DecidableEq α] (k s : List α) : isSubstr k s = true ↔ k <:+: s := by
  induction s with
  | nil => simp [isSubstr, List.isEmpty_iff]
  | cons b bs ih => simp [isSubstr, isPre_iff, ih, List.infix_cons_iff]

theorem splitGo_ne_nil [DecidableEq α] (k : List α) (fuel : Nat) (s : List α) :
    splitGo k fuel s ≠ [] := by
  match fuel, s with
  | _, [] => simp [splitGo]
  | 0, b :: bs => simp [splitGo]
  | fuel + 1, b :: bs =>
    simp only [splitGo]
    split
    · simp
    · split <;> simp

theorem replaceGo_eq_joinParts [DecidableEq α] (k r : List α) (fuel : Nat) (s : List α) :
    replaceGo k r fuel s = joinParts r (splitGo k fuel s) := by
  induction fuel generalizing s with
  | zero => cases s <;> rfl
  | succ n ih =>
    cases s with
    | nil => rfl
    | cons b bs =>
      simp only [replaceGo, splitGo]
      by_cases h : isPre k (b :: bs) = true
      · rw [if_pos h, if_pos h, ih]
        obtain ⟨p, ps, hps⟩ : ∃ p ps, splitGo k n ((b :: bs).drop k.length) = p :: ps := by
          cases hsp : splitGo k n ((b :: bs).drop k.length) with
          | nil => exact absurd hsp (splitGo_ne_nil k n _)
          | cons p ps => exact ⟨p, ps, rfl⟩
        rw [hps]
        cases ps <;> simp [joinParts]
      · rw [if_neg h, if_neg h, ih]
        obtain ⟨p, ps, hps⟩ : ∃ p ps, splitGo k n bs = p :: ps := by
          cases hsp : splitGo k n bs with
          | nil => exact absurd hsp (splitGo_ne_nil k n _)
          | cons p ps => exact ⟨p, ps, rfl⟩
        rw [hps]
        cases ps <;> simp [joinParts]

theorem splitGo_head [DecidableEq α] (k : List α) (fuel : Nat) (s : List α) :
    ∃ p ps, splitGo k fuel s = p :: ps ∧ p <+: s := by
  induction fuel generalizing s with
  | zero =>
    cases s with
    | nil => exact ⟨[], [], rfl, List.nil_prefix⟩
    | cons b bs => exact ⟨b :: bs, [], rfl, List.prefix_refl _⟩
  | succ n ih =>
    cases s with
    | nil => exact ⟨[], [], rfl, List.nil_prefix⟩
    | cons b bs =>
      simp only [splitGo]
      by_cases h : isPre k (b :: bs) = true
      · rw [if_pos h]
        exact ⟨[], _, rfl, List.nil_prefix⟩
      · rw [if_neg h]
        obtain ⟨p, ps, hps, hpre⟩ := ih bs
        rw [hps]
        exact ⟨b :: p, ps, rfl, List.cons_prefix_cons.mpr ⟨rfl, hpre⟩⟩

theorem splitGo_parts_free [DecidableEq α] {k : List α} (hk : k ≠ []) (fuel : Nat)
    (s : List α) (hs : s.length ≤ fuel) : ∀ p ∈ splitGo k fuel s, ¬ k <:+: p := by
  induction fuel generalizing s with
  | zero =>
    intro p hp
    have hnil : s = [] := List.eq_nil_of_length_eq_zero (Nat.le_zero.mp hs)
    subst hnil
    simp only [splitGo, List.mem_singleton] at hp
    subst hp
    simpa [List.infix_nil] using hk
  | succ n ih =>
    intro p hp
    cases s with
    | nil =>
      simp only [splitGo, List.mem_singleton] at hp
      subst hp
      simpa [List.infix_nil] using hk
    | cons b bs =>
      have hk1 : 1 ≤ k.length := List.length_pos.mpr hk
      have hbs : bs.length ≤ n := by
        simpa [Nat.succ_le_succ_iff] using hs
      simp only [splitGo] at hp
      by_cases h : isPre k (b :: bs) = true
      · rw [if_pos h] at hp
        rcases List.mem_cons.mp hp with hpe | hpm
        · subst hpe
          simpa [List.infix_nil] using hk
        · have hdrop : ((b :: bs).drop k.length).length ≤ n := by
            simp only [List.length_drop, List.length_cons]
            omega
          exact ih _ hdrop p hpm
      · rw [if_neg h] at hp
        obtain ⟨q, qs, hqs, hqpre⟩ := splitGo_head k n bs
        rw [hqs] at hp
        rcases List.mem_cons.mp hp with hpe | hpm
        · subst hpe
          intro hinf
          rcases List.infix_cons_iff.mp hinf with hpre | htail
          · have : k <+: b :: bs :=
              hpre.trans (List.cons_prefix_cons.mpr ⟨rfl, hqpre⟩)
            exact h ((isPre_iff k (b :: bs)).mpr this)
          · have hqmem : q ∈ splitGo k n bs := by
              rw [hqs]; exact List.mem_cons_self _ _
            exact ih bs hbs q hqmem htail
        · have : p ∈ splitGo k n bs := by
            rw [hqs]; exact List.mem_cons_of_mem _ hpm
          exact ih bs hbs p this

theorem listReplaceAll_eq_joinParts [DecidableEq α] (k r s : List α) :
    listReplaceAll k r s = joinParts r (splitAll k s) := by
  unfold listReplaceAll splitAll
  by_cases h : k.isEmpty
  · rw [if_pos h, if_pos h]; rfl
  · rw [if_neg h, if_neg h]
    exact replaceGo_eq_joinParts k r s.length s

theorem splitAll_parts_free [DecidableEq α] {k : List α} (hk : k ≠ []) (s : List α) :
    ∀ p ∈ splitAll k s, ¬ k <:+: p := by
  unfold splitAll
  have h : k.isEmpty = false := by
    cases k with
    | nil => exact absurd rfl hk
    | cons a as => rfl
  rw [h]
  simp only [Bool.false_eq_true, if_false]
  exact splitGo_parts_free hk s.length s (Nat.le_refl _)

theorem listReplaceAll_nil [DecidableEq α] (k r : List α) : listReplaceAll k r [] = [] := by
  unfold listReplaceAll
  by_cases h : k.isEmpty
  · rw [if_pos h]
  · rw [if_neg h]; rfl

theorem rewriteLoop_eq_applyPairs (schema category : String) (names : List NamedPair)
    (s : String) : rewriteLoop schema category names s = applyPairs (pairsFor schema category names) s := by
  induction names generalizing s with
  | nil => rfl
  | cons p rest ih =>
    simp only [rewriteLoop, pairsFor, applyPairs, List.flatMap_cons, List.foldl_cons,
      List.foldl_append] at *
    exact ih _

theorem transformTypes_eq_applyPairs (opts : TransformTypesOptions)
    (sourceFile : List TopDecl) :
    transformTypes opts sourceFile
      = applyPairs (refPairs opts sourceFile) (joinSep ";\n" (filteredStrings opts sourceFile)) := by
  unfold transformTypes refPairs
  rw [rewriteLoop_eq_applyPairs, rewriteLoop_eq_applyPairs]
  unfold applyPairs
  rw [List.foldl_append]

/-! ## Shape of the emissions of each walk level -/

theorem opEmits_shape (opts : TransformTypesOptions) (tv : String) (n : TsNode) :
    ∀ e ∈ opEmits opts tv n, ∃ s, e = Emit.table s := by
  intro e he
  cases n with
  | propertySignature op ch =>
    simp only [opEmits] at he
    split at he
    · simp at he
    · split at he
      · simp at he
      · rw [List.mem_flatMap] at he
        obtain ⟨c, _, hc⟩ := he
        cases c <;> simp at hc <;> exact ⟨_, hc⟩
  | typeLiteral ms tx => simp [opEmits] at he
  | unionType tx => simp [opEmits] at he
  | literalType tx => simp [opEmits] at he
  | tupleType tx => simp [opEmits] at he
  | typeReference tx => simp [opEmits] at he
  | otherNode tx => simp [opEmits] at he

theorem tableMemberEmits_shape (opts : TransformTypesOptions) (n : TsNode) :
    ∀ e ∈ tableMemberEmits opts n, ∃ s, e = Emit.table s := by
  intro e he
  cases n with
  | propertySignature tv ch =>
    simp only [tableMemberEmits, List.mem_flatMap] at he
    obtain ⟨c, _, hc⟩ := he
    cases c <;> simp at hc
    case typeLiteral ms tx =>
      obtain ⟨m, _, hm⟩ := hc
      exact opEmits_shape opts tv m e hm
  | typeLiteral ms tx => simp [tableMemberEmits] at he
  | unionType tx => simp [tableMemberEmits] at he
  | literalType tx => simp [tableMemberEmits] at he
  | tupleType tx => simp [tableMemberEmits] at he
  | typeReference tx => simp [tableMemberEmits] at he
  | otherNode tx => simp [tableMemberEmits] at he

theorem enumMemberEmits_shape (fmt : String → String) (n : TsNode) :
    ∀ e ∈ enumMemberEmits fmt n, ∃ s nm, e = Emit.enumE s ⟨nm, fmt nm⟩ := by
  intro e he
  cases n with
  | propertySignature nm ch =>
    simp only [enumMemberEmits, List.mem_flatMap] at he
    obtain ⟨c, _, hc⟩ := he
    cases c <;> simp at hc <;> exact ⟨_, _, hc⟩
  | typeLiteral ms tx => simp [enumMemberEmits] at he
  | unionType tx => simp [enumMemberEmits] at he
  | literalType tx => simp [enumMemberEmits] at he
  | tupleType tx => simp [enumMemberEmits] at he
  | typeReference tx => simp [enumMemberEmits] at he
  | otherNode tx => simp [enumMemberEmits] at he

theorem compMemberEmits_shape (fmt : String → String) (n : TsNode) :
    ∀ e ∈ compMemberEmits fmt n, ∃ s nm, e = Emit.comp s ⟨nm, fmt nm⟩ := by
  intro e he
  cases n with
  | propertySignature nm ch =>
    simp only [compMemberEmits, List.mem_flatMap] at he
    obtain ⟨c, _, hc⟩ := he
    cases c <;> simp at hc <;> exact ⟨_, _, hc⟩
  | typeLiteral ms tx => simp [compMemberEmits] at he
  | unionType tx => simp [compMemberEmits] at he
  | literalType tx => simp [compMemberEmits] at he
  | tupleType tx => simp [compMemberEmits] at he
  | typeReference tx => simp [compMemberEmits] at he
  | otherNode tx => simp [compMemberEmits] at he

theorem funcArgEmits_shape (fmt : String → String → String) (fn : String) (n : TsNode) :
    ∀ e ∈ funcArgEmits fmt fn n, ∃ s, e = Emit.func s := by
  intro e he
  cases n with
  | propertySignature nm ch =>
    simp only [funcArgEmits, List.mem_flatMap] at he
    obtain ⟨c, _, hc⟩ := he
    cases c <;> simp at hc <;> exact ⟨_, hc⟩
  | typeLiteral ms tx => simp [funcArgEmits] at he
  | unionType tx => simp [funcArgEmits] at he
  | literalType tx => simp [funcArgEmits] at he
  | tupleType tx => simp [funcArgEmits] at he
  | typeReference tx => simp [funcArgEmits] at he
  | otherNode tx => simp [funcArgEmits] at he

theorem funcMemberEmits_shape (fmt : String → String → String) (n : TsNode) :
    ∀ e ∈ funcMemberEmits fmt n, ∃ s, e = Emit.func s := by
  intro e he
  cases n with
  | propertySignature nm ch =>
    simp only [funcMemberEmits, List.mem_flatMap] at he
    obtain ⟨c, _, hc⟩ := he
    cases c <;> simp at hc
    case typeLiteral ms tx =>
      obtain ⟨m, _, hm⟩ := hc
      exact funcArgEmits_shape fmt nm m e hm
  | typeLiteral ms tx => simp [funcMemberEmits] at he
  | unionType tx => simp [funcMemberEmits] at he
  | literalType tx => simp [funcMemberEmits] at he
  | tupleType tx => simp [funcMemberEmits] at he
  | typeReference tx => simp [funcMemberEmits] at he
  | otherNode tx => simp [funcMemberEmits] at he

/-! ## Every recorded pair's formatted name is the formatter of its name -/

theorem groupEmits_pairOK (opts : TransformTypesOptions) (n : TsNode) :
    ∀ e ∈ groupEmits opts n, pairOK opts e := by
  intro e he
  cases n with
  | propertySignature g ch =>
    simp only [groupEmits, List.mem_append] at he
    rcases he with ((he | he) | he) | he
    · split at he
      · rw [List.mem_flatMap] at he
        obtain ⟨c, _, hc⟩ := he
        cases c <;> simp at hc
        case typeLiteral ms tx =>
          obtain ⟨m, _, hm⟩ := hc
          obtain ⟨s, rfl⟩ := tableMemberEmits_shape opts m e hm
          trivial
      · simp at he
    · split at he
      · rw [List.mem_flatMap] at he
        obtain ⟨c, _, hc⟩ := he
        cases c <;> simp at hc
        case typeLiteral ms tx =>
          obtain ⟨m, _, hm⟩ := hc
          obtain ⟨s, nm, rfl⟩ := enumMemberEmits_shape opts.enumFormatter m e hm
          simp [pairOK]
      · simp at he
    · split at he
      · rw [List.mem_flatMap] at he
        obtain ⟨c, _, hc⟩ := he
        cases c <;> simp at hc
        case typeLiteral ms tx =>
          obtain ⟨m, _, hm⟩ := hc
          obtain ⟨s, nm, rfl⟩ := compMemberEmits_shape opts.compositeTypeFormatter m e hm
          simp [pairOK]
      · simp at he
    · split at he
      · rw [List.mem_flatMap] at he
        obtain ⟨c, _, hc⟩ := he
        cases c <;> simp at hc
        case typeLiteral ms tx =>
          obtain ⟨m, _, hm⟩ := hc
          obtain ⟨s, rfl⟩ := funcMemberEmits_shape opts.functionFormatter m e hm
          trivial
      · simp at he
  | typeLiteral ms tx => simp [groupEmits] at he
  | unionType tx => simp [groupEmits] at he
  | literalType tx => simp [groupEmits] at he
  | tupleType tx => simp [groupEmits] at he
  | typeReference tx => simp [groupEmits] at he
  | otherNode tx => simp [groupEmits] at he

theorem schemaEmits_pairOK (opts : TransformTypesOptions) (n : TsNode) :
    ∀ e ∈ schemaEmits opts n, pairOK opts e := by
  intro e he
  cases n with
  | propertySignature nm ch =>
    simp only [schemaEmits] at he
    split at he
    · rw [List.mem_flatMap] at he
      obtain ⟨c, _, hc⟩ := he
      cases c <;> simp at hc
      case typeLiteral ms tx =>
        obtain ⟨m, _, hm⟩ := hc
        exact groupEmits_pairOK opts m e hm
    · simp at he
  | typeLiteral ms tx => simp [schemaEmits] at he
  | unionType tx => simp [schemaEmits] at he
  | literalType tx => simp [schemaEmits] at he
  | tupleType tx => simp [schemaEmits] at he
  | typeReference tx => simp [schemaEmits] at he
  | otherNode tx => simp [schemaEmits] at he

theorem collectEmits_pairOK (opts : TransformTypesOptions) (sourceFile : List TopDecl) :
    ∀ e ∈ collectEmits opts sourceFile, pairOK opts e := by
  intro e he
  simp only [collectEmits, List.mem_flatMap] at he
  obtain ⟨d, _, hd⟩ := he
  cases d with
  | typeAlias name ty ft =>
    simp only [topDeclEmits, List.mem_append] at hd
    rcases hd with hd | hd
    · cases ty <;> simp at hd
      case typeLiteral ms tx =>
        obtain ⟨-, m, -, hm⟩ := hd
        exact schemaEmits_pairOK opts m e hm
    · split at hd
      · simp at hd
        subst hd
        trivial
      · simp at hd
  | interfaceDecl name ms =>
    simp only [topDeclEmits] at hd
    split at hd
    · rw [List.mem_flatMap] at hd
      obtain ⟨m, _, hm⟩ := hd
      exact schemaEmits_pairOK opts m e hm
    · simp at hd
  | otherDecl => simp [topDeclEmits] at hd

/-! ## Gating flags only ever add emissions -/

theorem setFlags_schema (opts : TransformTypesOptions) (r u i d : Bool) :
    (setFlags opts r u i d).schema = opts.schema := rfl

theorem flatMap_sublist {α β} {f g : α → List β} (h : ∀ a, List.Sublist (f a) (g a))
    (l : List α) : List.Sublist (l.flatMap f) (l.flatMap g) := by
  induction l with
  | nil => simp
  | cons a l ih => simpa [List.flatMap_cons] using (h a).append ih

theorem opEmits_flags_sub (opts : TransformTypesOptions) (r u i d : Bool) (tv : String)
    (n : TsNode) :
    List.Sublist (opEmits (setFlags opts false false false false) tv n)
      (opEmits (setFlags opts r u i d) tv n) := by
  cases n with
  | propertySignature op ch =>
    by_cases hskip : op = "Relationships" ∨ op = "Insert" ∨ op = "Update" ∨ op = "Delete"
    · have hbase : opEmits (setFlags opts false false false false) tv
          (TsNode.propertySignature op ch) = [] := by
        rcases hskip with h | h | h | h <;> subst h <;> simp [opEmits, setFlags]
      rw [hbase]
      exact List.nil_sublist _
    · push_neg at hskip
      obtain ⟨h1, h2, h3, h4⟩ := hskip
      have heq : opEmits (setFlags opts false false false false) tv
            (TsNode.propertySignature op ch)
          = opEmits (setFlags opts r u i d) tv (TsNode.propertySignature op ch) := by
        simp [opEmits, setFlags, h1, h2, h3, h4]
      rw [heq]
  | typeLiteral ms tx => exact List.Sublist.refl _
  | unionType tx => exact List.Sublist.refl _
  | literalType tx => exact List.Sublist.refl _
  | tupleType tx => exact List.Sublist.refl _
  | typeReference tx => exact List.Sublist.refl _
  | otherNode tx => exact List.Sublist.refl _

theorem tableMemberEmits_flags_sub (opts : TransformTypesOptions) (r u i d : Bool)
    (n : TsNode) :
    List.Sublist (tableMemberEmits (setFlags opts false false false false) n)
      (tableMemberEmits (setFlags opts r u i d) n) := by
  cases n with
  | propertySignature tv ch =>
    simp only [tableMemberEmits]
    refine flatMap_sublist (fun c => ?_) ch
    cases c with
    | typeLiteral ms tx => exact flatMap_sublist (fun m => opEmits_flags_sub opts r u i d tv m) ms
    | propertySignature nm cc => exact List.Sublist.refl _
    | unionType tx => exact List.Sublist.refl _
    | literalType tx => exact List.Sublist.refl _
    | tupleType tx => exact List.Sublist.refl _
    | typeReference tx => exact List.Sublist.refl _
    | otherNode tx => exact List.Sublist.refl _
  | typeLiteral ms tx => exact List.Sublist.refl _
  | unionType tx => exact List.Sublist.refl _
  | literalType tx => exact List.Sublist.refl _
  | tupleType tx => exact List.Sublist.refl _
  | typeReference tx => exact List.Sublist.refl _
  | otherNode tx => exact List.Sublist.refl _

theorem groupEmits_flags_sub (opts : TransformTypesOptions) (r u i d : Bool) (n : TsNode) :
    List.Sublist (groupEmits (setFlags opts false false false false) n)
      (groupEmits (setFlags opts r u i d) n) := by
  cases n with
  | propertySignature g ch =>
    simp only [groupEmits]
    refine List.Sublist.append
      (List.Sublist.append
        (List.Sublist.append ?_ (List.Sublist.refl _)) (List.Sublist.refl _))
      (List.Sublist.refl _)
    split
    · refine flatMap_sublist (fun c => ?_) ch
      cases c with
      | typeLiteral ms tx =>
        exact flatMap_sublist (fun m => tableMemberEmits_flags_sub opts r u i d m) ms
      | propertySignature nm cc => exact List.Sublist.refl _
      | unionType tx => exact List.Sublist.refl _
      | literalType tx => exact List.Sublist.refl _
      | tupleType tx => exact List.Sublist.refl _
      | typeReference tx => exact List.Sublist.refl _
      | otherNode tx => exact List.Sublist.refl _
    · exact List.Sublist.refl _
  | typeLiteral ms tx => exact List.Sublist.refl _
  | unionType tx => exact List.Sublist.refl _
  | literalType tx => exact List.Sublist.refl _
  | tupleType tx => exact List.Sublist.refl _
  | typeReference tx => exact List.Sublist.refl _
  | otherNode tx => exact List.Sublist.refl _

theorem schemaEmits_flags_sub (opts : TransformTypesOptions) (r u i d : Bool) (n : TsNode) :
    List.Sublist (schemaEmits (setFlags opts false false false false) n)
      (schemaEmits (setFlags opts r u i d) n) := by
  cases n with
  | propertySignature nm ch =>
    simp only [schemaEmits, setFlags_schema]
    by_cases hnm : nm = opts.schema
    · simp only [if_pos hnm]
      refine flatMap_sublist (fun c => ?_) ch
      cases c with
      | typeLiteral ms tx =>
        exact flatMap_sublist (fun m => groupEmits_flags_sub opts r u i d m) ms
      | propertySignature n2 cc => exact List.Sublist.refl _
      | unionType tx => exact List.Sublist.refl _
      | literalType tx => exact List.Sublist.refl _
      | tupleType tx => exact List.Sublist.refl _
      | typeReference tx => exact List.Sublist.refl _
      | otherNode tx => exact List.Sublist.refl _
    · simp only [if_neg hnm]
      exact List.Sublist.refl _
  | typeLiteral ms tx => exact List.Sublist.refl _
  | unionType tx => exact List.Sublist.refl _
  | literalType tx => exact List.Sublist.refl _
  | tupleType tx => exact List.Sublist.refl _
  | typeReference tx => exact List.Sublist.refl _
  | otherNode tx => exact List.Sublist.refl _

theorem collectEmits_flags_sub (opts : TransformTypesOptions) (r u i d : Bool)
    (sourceFile : List TopDecl) :
    List.Sublist (collectEmits (setFlags opts false false false false) sourceFile)
      (collectEmits (setFlags opts r u i d) sourceFile) := by
  refine flatMap_sublist (fun dcl => ?_) sourceFile
  cases dcl with
  | typeAlias name ty ft =>
    simp only [topDeclEmits]
    refine List.Sublist.append ?_ (List.Sublist.refl _)
    cases ty with
    | typeLiteral ms tx =>
      by_cases hdb : name = "Database"
      · simp only [if_pos hdb]
        exact flatMap_sublist (fun m => schemaEmits_flags_sub opts r u i d m) ms
      · simp only [if_neg hdb]
        exact List.Sublist.refl _
    | propertySignature nm cc => exact List.Sublist.refl _
    | unionType tx => exact List.Sublist.refl _
    | literalType tx => exact List.Sublist.refl _
    | tupleType tx => exact List.Sublist.refl _
    | typeReference tx => exact List.Sublist.refl _
    | otherNode tx => exact List.Sublist.refl _
  | interfaceDecl name ms =>
    simp only [topDeclEmits]
    by_cases hdb : name = "Database"
    · simp only [if_pos hdb]
      exact flatMap_sublist (fun m => schemaEmits_flags_sub opts r u i d m) ms
    · simp only [if_neg hdb]
      exact List.Sublist.refl _
  | otherDecl => exact List.Sublist.refl _

theorem filteredStrings_eq_keptEmits (opts : TransformTypesOptions)
    (sourceFile : List TopDecl) :
    filteredStrings opts sourceFile = (keptEmits opts sourceFile).map Emit.text := by
  unfold filteredStrings typeStrings keptEmits
  rw [List.filter_map]
  rfl

/-! ## Group dispatch at the four concrete group names -/

theorem groupEmits_at_tables (opts : TransformTypesOptions) (ch : List TsNode) :
    groupEmits opts (TsNode.propertySignature "Tables" ch)
      = ch.flatMap fun c =>
          match c with
          | TsNode.typeLiteral members _ => members.flatMap (tableMemberEmits opts)
          | _ => [] := by
  simp [groupEmits]

theorem groupEmits_at_views (opts : TransformTypesOptions) (ch : List TsNode) :
    groupEmits opts (TsNode.propertySignature "Views" ch)
      = ch.flatMap fun c =>
          match c with
          | TsNode.typeLiteral members _ => members.flatMap (tableMemberEmits opts)
          | _ => [] := by
  simp [groupEmits]

theorem groupEmits_at_enums (opts : TransformTypesOptions) (ch : List TsNode) :
    groupEmits opts (TsNode.propertySignature "Enums" ch)
      = ch.flatMap fun c =>
          match c with
          | TsNode.typeLiteral members _ => members.flatMap (enumMemberEmits opts.enumFormatter)
          | _ => [] := by
  simp [groupEmits]

theorem groupEmits_at_compositeTypes (opts : TransformTypesOptions) (ch : List TsNode) :
    groupEmits opts (TsNode.propertySignature "CompositeTypes" ch)
      = ch.flatMap fun c =>
          match c with
          | TsNode.typeLiteral members _ =>
            members.flatMap (compMemberEmits opts.compositeTypeFormatter)
          | _ => [] := by
  simp [groupEmits]

theorem groupEmits_at_functions (opts : TransformTypesOptions) (ch : List TsNode) :
    groupEmits opts (TsNode.propertySignature "Functions" ch)
      = ch.flatMap fun c =>
          match c with
          | TsNode.typeLiteral members _ => members.flatMap (funcMemberEmits opts.functionFormatter)
          | _ => [] := by
  simp [groupEmits]

theorem groupEmits_at_tables_cat (opts : TransformTypesOptions) (ch : List TsNode) :
    ∀ e ∈ groupEmits opts (TsNode.propertySignature "Tables" ch), e.cat = Cat.table := by
  intro e he
  rw [groupEmits_at_tables, List.mem_flatMap] at he
  obtain ⟨c, _, hc⟩ := he
  cases c <;> simp at hc
  case typeLiteral ms tx =>
    obtain ⟨m, _, hm⟩ := hc
    obtain ⟨s, rfl⟩ := tableMemberEmits_shape opts m e hm
    rfl

theorem groupEmits_at_views_cat (opts : TransformTypesOptions) (ch : List TsNode) :
    ∀ e ∈ groupEmits opts (TsNode.propertySignature "Views" ch), e.cat = Cat.table := by
  intro e he
  rw [groupEmits_at_views, List.mem_flatMap] at he
  obtain ⟨c, _, hc⟩ := he
  cases c <;> simp at hc
  case typeLiteral ms tx =>
    obtain ⟨m, _, hm⟩ := hc
    obtain ⟨s, rfl⟩ := tableMemberEmits_shape opts m e hm
    rfl

theorem groupEmits_at_enums_cat (opts : TransformTypesOptions) (ch : List TsNode) :
    ∀ e ∈ groupEmits opts (TsNode.propertySignature "Enums" ch), e.cat = Cat.enumDecl := by
  intro e he
  rw [groupEmits_at_enums, List.mem_flatMap] at he
  obtain ⟨c, _, hc⟩ := he
  cases c <;> simp at hc
  case typeLiteral ms tx =>
    obtain ⟨m, _, hm⟩ := hc
    obtain ⟨s, nm, rfl⟩ := enumMemberEmits_shape opts.enumFormatter m e hm
    rfl

theorem groupEmits_at_compositeTypes_cat (opts : TransformTypesOptions) (ch : List TsNode) :
    ∀ e ∈ groupEmits opts (TsNode.propertySignature "CompositeTypes" ch),
      e.cat = Cat.compositeType := by
  intro e he
  rw [groupEmits_at_compositeTypes, List.mem_flatMap] at he
  obtain ⟨c, _, hc⟩ := he
  cases c <;> simp at hc
  case typeLiteral ms tx =>
    obtain ⟨m, _, hm⟩ := hc
    obtain ⟨s, nm, rfl⟩ := compMemberEmits_shape opts.compositeTypeFormatter m e hm
    rfl

theorem groupEmits_at_functions_cat (opts : TransformTypesOptions) (ch : List TsNode) :
    ∀ e ∈ groupEmits opts (TsNode.propertySignature "Functions" ch), e.cat = Cat.funcDecl := by
  intro e he
  rw [groupEmits_at_functions, List.mem_flatMap] at he
  obtain ⟨c, _, hc⟩ := he
  cases c <;> simp at hc
  case typeLiteral ms tx =>
    obtain ⟨m, _, hm⟩ := hc
    obtain ⟨s, rfl⟩ := funcMemberEmits_shape opts.functionFormatter m e hm
    rfl

/-! ## Inputs on which a top-level declaration pushes nothing -/

theorem schemaEmits_eq_nil_of_name_ne (opts : TransformTypesOptions) (m : TsNode)
    (h : ∀ n ch, m = TsNode.propertySignature n ch → n ≠ opts.schema) :
    schemaEmits opts m = [] := by
  cases m with
  | propertySignature n ch => simp [schemaEmits, h n ch rfl]
  | typeLiteral ms tx => rfl
  | unionType tx => rfl
  | literalType tx => rfl
  | tupleType tx => rfl
  | typeReference tx => rfl
  | otherNode tx => rfl

theorem topDeclEmits_eq_nil (opts : TransformTypesOptions) (d : TopDecl)
    (h : yieldsNoEmits opts.schema d = true) : topDeclEmits opts d = [] := by
  cases d with
  | typeAlias name ty ft =>
    simp only [yieldsNoEmits, Bool.and_eq_true, bne_iff_ne, ne_eq] at h
    obtain ⟨hjson, hbody⟩ := h
    simp only [topDeclEmits, if_neg hjson, List.append_nil]
    cases ty with
    | typeLiteral ms tx =>
      simp only [Bool.or_eq_true, bne_iff_ne, ne_eq, List.all_eq_true] at hbody
      show (if name = "Database" then ms.flatMap (schemaEmits opts) else []) = []
      rcases hbody with hdb | hall
      · simp [if_neg hdb]
      · by_cases hdb : name = "Database"
        · rw [if_pos hdb, List.flatMap_eq_nil_iff]
          intro m hm
          refine schemaEmits_eq_nil_of_name_ne opts m (fun n ch hps => ?_)
          have := hall m hm
          rw [hps] at this
          simpa using this
        · rw [if_neg hdb]
    | propertySignature nm cc => rfl
    | unionType tx => rfl
    | literalType tx => rfl
    | tupleType tx => rfl
    | typeReference tx => rfl
    | otherNode tx => rfl
  | interfaceDecl name ms =>
    simp only [yieldsNoEmits, Bool.or_eq_true, bne_iff_ne, ne_eq, List.all_eq_true] at h
    simp only [topDeclEmits]
    rcases h with hdb | hall
    · simp [if_neg hdb]
    · split
      · rw [List.flatMap_eq_nil_iff]
        intro m hm
        refine schemaEmits_eq_nil_of_name_ne opts m (fun n ch hps => ?_)
        have := hall m hm
        rw [hps] at this
        simpa using this
      · rfl
  | otherDecl => rfl

theorem collectEmits_eq_nil (opts : TransformTypesOptions) (sourceFile : List TopDecl)
    (h : ∀ d ∈ sourceFile, yieldsNoEmits opts.schema d = true) :
    collectEmits opts sourceFile = [] := by
  unfold collectEmits
  rw [List.flatMap_eq_nil_iff]
  exact fun d hd => topDeclEmits_eq_nil opts d (h d hd)

/-! ## Declarations joined into the output remain infixes (no rewriting) -/

theorem mem_joinSep_infix (sep : String) (l : List String) (s : String) (h : s ∈ l) :
    s.data <:+: (joinSep sep l).data := by
  induction l with
  | nil => cases h
  | cons a rest ih =>
    cases rest with
    | nil =>
      rw [List.mem_singleton] at h
      subst h
      exact List.infix_refl _
    | cons b bs =>
      rcases List.mem_cons.mp h with h1 | h1
      · subst h1
        show s.data <:+: (s ++ sep ++ joinSep sep (b :: bs)).data
        simp only [String.data_append]
        exact ⟨[], sep.data ++ (joinSep sep (b :: bs)).data, by simp⟩
      · have h2 := ih h1
        refine h2.trans ?_
        show (joinSep sep (b :: bs)).data <:+: (a ++ sep ++ joinSep sep (b :: bs)).data
        simp only [String.data_append]
        exact ⟨a.data ++ sep.data, [], by simp⟩

/-- The output depends on the source file only through the collected
emissions. -/
theorem transformTypes_congr (opts : TransformTypesOptions) {t1 t2 : List TopDecl}
    (h : collectEmits opts t1 = collectEmits opts t2) :
    transformTypes opts t1 = transformTypes opts t2 := by
  unfold transformTypes enumNames compositeTypeNames filteredStrings typeStrings
  rw [h]

/-! ## The claims -/

/-- C1 (amended): each recorded entry's rewrite pass is a global
left-to-right replace-all over the single joined text of all collected
declarations (enum entries first, then composite entries, double-quoted
spelling before single-quoted): the pass output is the replacement-text
intercalation of the maximal key-free segments of its input, so every
occurrence of the entry's qualified path present when its pass runs is
replaced, across all collected bodies and not only the declaring one.
Substituted formatted names may however recreate qualified paths —
recorded ones included — and those survive into the returned output, as do
paths whose targets were never recorded. -/
theorem c1_rewrite_global :
    (∀ (opts : TransformTypesOptions) (sourceFile : List TopDecl),
        transformTypes opts sourceFile
          = applyPairs (refPairs opts sourceFile)
              (joinSep ";\n" (filteredStrings opts sourceFile)))
      ∧ (∀ (k r s : List Char), listReplaceAll k r s = joinParts r (splitAll k s))
      ∧ (∀ (k s p : List Char), k ≠ [] → p ∈ splitAll k s → ¬ k <:+: p) := by
  refine ⟨transformTypes_eq_applyPairs, ?_, ?_⟩
  · intro k r s
    exact listReplaceAll_eq_joinParts k r s
  · intro k s p hk hp
    exact splitAll_parts_free hk s p hp

/-- Witness for C1: the characterization instantiated at a concrete key,
string and segment. -/
theorem c1_rewrite_global_witness :
    ¬ (("ab".data : List Char) <:+: ("x".data : List Char)) :=
  c1_rewrite_global.2.2 "ab".data "xaby".data "x".data (by decide) (by decide)

/-- Counterexample for C1 as stated: on `c1Tree` with `c1Opts`, enum `a`
is recorded (with formatted name `A`), yet the double-quoted qualified
path of `a` occurs in the returned output text: the pass for entry `b`
substitutes a formatted name equal to that path after `a`'s own pass has
already run. -/
theorem c1_recorded_path_survives :
    (⟨"a", "A"⟩ : NamedPair) ∈ enumNames c1Opts c1Tree
      ∧ strIncludes (transformTypes c1Opts c1Tree)
          "Database[\"public\"][\"Enums\"][\"a\"]" = true := by
  refine ⟨by decide, by decide⟩

/-- C2 (amended): if no top-level declaration is a `Json` type alias, and
no `Database` declaration (alias-style with a literal body, or
interface-style) has a property-signature child named like the configured
schema, the output is the empty string.  (The claim as frozen omits the
`Json` proviso; a `Json` alias is emitted even without any `Database`
declaration.) -/
theorem c2_no_database_no_schema_empty (opts : TransformTypesOptions)
    (sourceFile : List TopDecl)
    (h : ∀ d ∈ sourceFile, yieldsNoEmits opts.schema d = true) :
    transformTypes opts sourceFile = "" := by
  have hnil := collectEmits_eq_nil opts sourceFile h
  unfold transformTypes rewriteLoop enumNames compositeTypeNames filteredStrings typeStrings
  rw [hnil]
  rfl

/-- Witness for C2: a source file with a single unrecognized top-level
declaration yields the empty output. -/
theorem c2_no_database_no_schema_empty_witness :
    transformTypes defaultOptions [TopDecl.otherDecl] = "" :=
  c2_no_database_no_schema_empty defaultOptions [TopDecl.otherDecl] (by decide)

/-- Counterexample for C2 as stated: a source file with no `Database`
declaration at all but with a `Json` type alias produces that alias's
verbatim text, not the empty string. -/
theorem c2_json_output_nonempty :
    transformTypes defaultOptions
        [TopDecl.typeAlias "Json" (TsNode.otherNode "") "type Json = null"]
      = "type Json = null"
    ∧ transformTypes defaultOptions
        [TopDecl.typeAlias "Json" (TsNode.otherNode "") "type Json = null"] ≠ "" := by
  refine ⟨by decide, by decide⟩

/-- C4 (amended): the `Record<number` filter runs on the collected
declaration strings before reference rewriting: every string joined into
the output is `Record<number`-free as collected, and every collected
string containing the pattern is dropped entirely; rewriting runs
afterwards on the joined text and can reintroduce the pattern. -/
theorem c4_filter_precedes_rewrite :
    (∀ (opts : TransformTypesOptions) (sourceFile : List TopDecl),
        transformTypes opts sourceFile
          = applyPairs (refPairs opts sourceFile)
              (joinSep ";\n" (filteredStrings opts sourceFile)))
      ∧ (∀ (opts : TransformTypesOptions) (sourceFile : List TopDecl) (s : String),
          s ∈ filteredStrings opts sourceFile → strIncludes s "Record<number" = false)
      ∧ (∀ (opts : TransformTypesOptions) (sourceFile : List TopDecl) (s : String),
          s ∈ typeStrings opts sourceFile → strIncludes s "Record<number" = true →
            s ∉ filteredStrings opts sourceFile) := by
  refine ⟨transformTypes_eq_applyPairs, ?_, ?_⟩
  · intro opts sf s hs
    have h := (List.mem_filter.mp hs).2
    simpa using h
  · intro opts sf s _ hpat hmem
    have h := (List.mem_filter.mp hmem).2
    simp [hpat] at h

/-- Witness for C4: a kept declaration string of a concrete run is
pattern-free. -/
theorem c4_filter_precedes_rewrite_witness :
    strIncludes "type Json = null" "Record<number" = false :=
  c4_filter_precedes_rewrite.2.1 defaultOptions
    [TopDecl.typeAlias "Json" (TsNode.otherNode "") "type Json = null"]
    "type Json = null" (by decide)

/-- Counterexample for C4 as stated: on `c4Tree` with `c4Opts` the table
entity's declaration contains `Record<number` after reference rewriting
(the enum's formatted name introduces it), yet the entity is emitted: the
pattern reaches the returned output. -/
theorem c4_pattern_survives_rewrite :
    transformTypes c4Opts c4Tree = "export type tRow = [ x: Record<number ]"
    ∧ strIncludes (transformTypes c4Opts c4Tree) "Record<number" = true := by
  refine ⟨by decide, by decide⟩

/-- C5 (amended): a top-level type alias named `Json`, anywhere among the
top-level declarations, has its verbatim declaration text collected
unrenamed, and — provided the text does not contain `Record<number` — the
text is among the assembled declarations; when additionally no enum or
composite-type entry was recorded (so the rewrite passes are vacuous) the
text appears verbatim, as a contiguous segment, in the returned output.
(The claim as frozen omits both provisos: the assembler's filter does
remove a `Json` alias containing `Record<number`, and rewrite passes may
edit one containing a recorded qualified path.) -/
theorem c5_json_kept (opts : TransformTypesOptions) (pre post : List TopDecl)
    (ty : TsNode) (ft : String)
    (hft : strIncludes ft "Record<number" = false) :
    ft ∈ filteredStrings opts (pre ++ TopDecl.typeAlias "Json" ty ft :: post)
    ∧ (enumNames opts (pre ++ TopDecl.typeAlias "Json" ty ft :: post) = [] →
       compositeTypeNames opts (pre ++ TopDecl.typeAlias "Json" ty ft :: post) = [] →
       isSubstr ft.data
         (transformTypes opts (pre ++ TopDecl.typeAlias "Json" ty ft :: post)).data = true) := by
  have hemit : Emit.json ft ∈ collectEmits opts (pre ++ TopDecl.typeAlias "Json" ty ft :: post) := by
    unfold collectEmits
    rw [List.mem_flatMap]
    refine ⟨TopDecl.typeAlias "Json" ty ft, ?_, ?_⟩
    · exact List.mem_append_right _ (List.mem_cons_self _ _)
    · simp only [topDeclEmits]
      exact List.mem_append_right _ (by simp)
  have hmem : ft ∈ filteredStrings opts (pre ++ TopDecl.typeAlias "Json" ty ft :: post) := by
    unfold filteredStrings typeStrings
    rw [List.mem_filter]
    refine ⟨List.mem_map.mpr ⟨Emit.json ft, hemit, rfl⟩, by simp [hft]⟩
  refine ⟨hmem, fun he hc => ?_⟩
  have hout : transformTypes opts (pre ++ TopDecl.typeAlias "Json" ty ft :: post)
      = joinSep ";\n" (filteredStrings opts (pre ++ TopDecl.typeAlias "Json" ty ft :: post)) := by
    unfold transformTypes
    rw [he, hc]
    rfl
  rw [isSubstr_iff, hout]
  exact mem_joinSep_infix _ _ _ hmem

/-- Witness for C5: a concrete `Json` alias survives filtering and appears
verbatim in the output. -/
theorem c5_json_kept_witness :
    "type Json = null" ∈ filteredStrings defaultOptions
        [TopDecl.typeAlias "Json" (TsNode.otherNode "") "type Json = null"]
    ∧ isSubstr ("type Json = null").data
        (transformTypes defaultOptions
          [TopDecl.typeAlias "Json" (TsNode.otherNode "") "type Json = null"]).data = true :=
  ⟨(c5_json_kept defaultOptions [] [] (TsNode.otherNode "") "type Json = null" (by decide)).1,
   (c5_json_kept defaultOptions [] [] (TsNode.otherNode "") "type Json = null" (by decide)).2
     (by decide) (by decide)⟩

/-- Counterexample for C5 as stated: a `Json` type alias whose text
contains `Record<number` is removed by the assembler's filter: the output
is empty and the alias text does not appear in it. -/
theorem c5_json_filtered_out :
    transformTypes defaultOptions
        [TopDecl.typeAlias "Json" (TsNode.otherNode "")
          "type Json = Record<number, string>"] = ""
    ∧ isSubstr ("type Json = Record<number, string>").data
        (transformTypes defaultOptions
          [TopDecl.typeAlias "Json" (TsNode.otherNode "")
            "type Json = Record<number, string>"]).data = false := by
  refine ⟨by decide, by decide⟩

/-- C6 (amended): the recorded reference lists keep every discovered
entry, duplicates included, in discovery order (no per-`(category, name)`
overwriting); since each entry's formatted name is computed by the
deterministic formatter from its original name alone, all entries sharing
a name carry the same formatted name, so every qualified reference to that
name is rewritten to that common formatted name — extensionally what
last-write-wins would produce. -/
theorem c6_formatter_determines_names :
    (∀ (opts : TransformTypesOptions) (sourceFile : List TopDecl) (p : NamedPair),
        p ∈ enumNames opts sourceFile → p.formattedName = opts.enumFormatter p.name)
    ∧ (∀ (opts : TransformTypesOptions) (sourceFile : List TopDecl) (p : NamedPair),
        p ∈ compositeTypeNames opts sourceFile →
          p.formattedName = opts.compositeTypeFormatter p.name)
    ∧ (∀ (opts : TransformTypesOptions) (sourceFile : List TopDecl) (p q : NamedPair),
        p ∈ enumNames opts sourceFile → q ∈ enumNames opts sourceFile →
          p.name = q.name → p.formattedName = q.formattedName) := by
  have he : ∀ (opts : TransformTypesOptions) (sf : List TopDecl) (p : NamedPair),
      p ∈ enumNames opts sf → p.formattedName = opts.enumFormatter p.name := by
    intro opts sf p hp
    unfold enumNames at hp
    rw [List.mem_filterMap] at hp
    obtain ⟨e, hemem, hsome⟩ := hp
    have hOK := collectEmits_pairOK opts sf e hemem
    cases e <;> simp at hsome
    case enumE s q =>
      subst hsome
      exact hOK
  refine ⟨he, ?_, ?_⟩
  · intro opts sf p hp
    unfold compositeTypeNames at hp
    rw [List.mem_filterMap] at hp
    obtain ⟨e, hemem, hsome⟩ := hp
    have hOK := collectEmits_pairOK opts sf e hemem
    cases e <;> simp at hsome
    case comp s q =>
      subst hsome
      exact hOK
  · intro opts sf p q hp hq hname
    rw [he opts sf p hp, he opts sf q hq, hname]

/-- Witness for C6: the invariant instantiated on the duplicate-name
input. -/
theorem c6_formatter_determines_names_witness :
    (⟨"m", "m"⟩ : NamedPair).formattedName
      = defaultOptions.enumFormatter (⟨"m", "m"⟩ : NamedPair).name :=
  c6_formatter_determines_names.1 defaultOptions c6Tree ⟨"m", "m"⟩ (by decide)

/-- Counterexample for C6 as stated: on `c6Tree` the enum reference list
keeps two entries for the single `(Enums, "m")` pair — nothing overwrites
the earlier entry. -/
theorem c6_duplicate_entries_kept :
    enumNames defaultOptions c6Tree
      = [⟨"m", "m"⟩, ⟨"m", "m"⟩] := by
  decide

/-- C7: an alias-style `Database` declaration (type alias whose body is a
type literal) and an interface-style `Database` declaration with the same
members produce identical output, in any surrounding source file. -/
theorem c7_alias_interface_equiv (opts : TransformTypesOptions) (pre post : List TopDecl)
    (members : List TsNode) (bodyText fullText : String) :
    transformTypes opts
        (pre ++ TopDecl.typeAlias "Database" (TsNode.typeLiteral members bodyText) fullText
          :: post)
      = transformTypes opts (pre ++ TopDecl.interfaceDecl "Database" members :: post) := by
  refine transformTypes_congr opts ?_
  unfold collectEmits
  rw [List.flatMap_append, List.flatMap_cons, List.flatMap_append, List.flatMap_cons]
  have hde : topDeclEmits opts
        (TopDecl.typeAlias "Database" (TsNode.typeLiteral members bodyText) fullText)
      = topDeclEmits opts (TopDecl.interfaceDecl "Database" members) := by
    simp [topDeclEmits]
  rw [hde]

/-- C8: with the same options otherwise, the number of table-or-view
declarations that survive the filter (and are therefore joined into the
output, per the second conjunct) with all four gating flags `false` is at
most the number with any other flag assignment; enabling flags never
removes a table-or-view declaration. -/
theorem c8_flags_monotone (opts : TransformTypesOptions) (sourceFile : List TopDecl)
    (r u i d : Bool) :
    tvKeptCount (setFlags opts false false false false) sourceFile
      ≤ tvKeptCount (setFlags opts r u i d) sourceFile
    ∧ ∀ (opts2 : TransformTypesOptions) (sf2 : List TopDecl),
        filteredStrings opts2 sf2 = (keptEmits opts2 sf2).map Emit.text := by
  constructor
  · have hsub := collectEmits_flags_sub opts r u i d sourceFile
    have h1 := hsub.filter fun e => !(strIncludes e.text "Record<number")
    have h2 := h1.filter fun e => e.cat == Cat.table
    exact h2.length_le
  · intro opts2 sf2
    exact filteredStrings_eq_keptEmits opts2 sf2

/-- C9 (amended): emission follows input traversal order, group children
in their source order; when the schema body lists its groups in the
conventional `Tables`, `Views`, `Enums`, `CompositeTypes`, `Functions`
order, the collected emissions are exactly the concatenation of the five
groups' emissions in that order (entries in source order within each
group, the group traversals being order-preserving), and each group
contributes only its own category of declaration. -/
theorem c9_traversal_order (opts : TransformTypesOptions)
    (tM vM eM cM fM : List TsNode) (schemaText bodyText fullText : String) :
    collectEmits opts
        [TopDecl.typeAlias "Database"
          (TsNode.typeLiteral
            [TsNode.propertySignature opts.schema
              [TsNode.typeLiteral
                [TsNode.propertySignature "Tables" tM,
                 TsNode.propertySignature "Views" vM,
                 TsNode.propertySignature "Enums" eM,
                 TsNode.propertySignature "CompositeTypes" cM,
                 TsNode.propertySignature "Functions" fM] schemaText]] bodyText) fullText]
      = groupEmits opts (TsNode.propertySignature "Tables" tM)
        ++ groupEmits opts (TsNode.propertySignature "Views" vM)
        ++ groupEmits opts (TsNode.propertySignature "Enums" eM)
        ++ groupEmits opts (TsNode.propertySignature "CompositeTypes" cM)
        ++ groupEmits opts (TsNode.propertySignature "Functions" fM)
    ∧ (∀ e ∈ groupEmits opts (TsNode.propertySignature "Tables" tM), e.cat = Cat.table)
    ∧ (∀ e ∈ groupEmits opts (TsNode.propertySignature "Views" vM), e.cat = Cat.table)
    ∧ (∀ e ∈ groupEmits opts (TsNode.propertySignature "Enums" eM), e.cat = Cat.enumDecl)
    ∧ (∀ e ∈ groupEmits opts (TsNode.propertySignature "CompositeTypes" cM),
        e.cat = Cat.compositeType)
    ∧ (∀ e ∈ groupEmits opts (TsNode.propertySignature "Functions" fM),
        e.cat = Cat.funcDecl) := by
  refine ⟨?_, groupEmits_at_tables_cat opts tM, groupEmits_at_views_cat opts vM,
    groupEmits_at_enums_cat opts eM, groupEmits_at_compositeTypes_cat opts cM,
    groupEmits_at_functions_cat opts fM⟩
  simp [collectEmits, topDeclEmits, schemaEmits, List.append_assoc]

/-- Witness for C9: the order theorem instantiated on a one-enum schema
body. -/
theorem c9_traversal_order_witness :
    (Emit.enumE "export type m = \"a\"" ⟨"m", "m"⟩).cat = Cat.enumDecl :=
  (c9_traversal_order defaultOptions [] []
      [TsNode.typeLiteral [TsNode.propertySignature "m" [TsNode.unionType "\"a\""]] "eg"]
      [] [] "sb" "db" "dbfull").2.2.2.1
    (Emit.enumE "export type m = \"a\"" ⟨"m", "m"⟩) (by decide)

/-- Counterexample for C9 as stated: on `c9Tree`, whose schema body lists
`Enums` before `Tables`, the enum declaration precedes the table
declaration in the output — the fixed group order the claim asserts does
not hold for every input. -/
theorem c9_group_order_violation :
    transformTypes defaultOptions c9Tree
        = "export type m = \"a\" | \"b\";\nexport type tRow = Json"
    ∧ (collectEmits defaultOptions c9Tree).map Emit.cat = [Cat.enumDecl, Cat.table] := by
  refine ⟨by decide, by decide⟩

/-- C10: an `Enums` member whose body nodes are neither union types nor
literal types contributes no declaration string and no reference-table
entry; on the concrete `c10Tree` no enum is recorded and the qualified
reference to `status` survives verbatim in the returned output. -/
theorem c10_nonunion_enum_omitted :
    (∀ (fmt : String → String) (name : String) (children : List TsNode),
        (∀ c ∈ children, isUnionOrLiteral c = false) →
        enumMemberEmits fmt (TsNode.propertySignature name children) = [])
    ∧ transformTypes defaultOptions c10Tree
        = "export type tRow = [ s: Database[\"public\"][\"Enums\"][\"status\"] ]"
    ∧ enumNames defaultOptions c10Tree = [] := by
  refine ⟨?_, by decide, by decide⟩
  intro fmt name children h
  simp only [enumMemberEmits]
  rw [List.flatMap_eq_nil_iff]
  intro c hc
  have hcb := h c hc
  cases c <;> simp [isUnionOrLiteral] at hcb ⊢

/-- Witness for C10: a type-reference enum body produces no emission. -/
theorem c10_nonunion_enum_omitted_witness :
    enumMemberEmits (fun n => n)
        (TsNode.propertySignature "status" [TsNode.typeReference "SomeRef"]) = [] :=
  c10_nonunion_enum_omitted.1 (fun n => n) "status" [TsNode.typeReference "SomeRef"]
    (by decide)
